import Mathlib

/-
  Verification development for the SAFE cap-table simulator.

  The definitions below are a shallow embedding of src/src/Company.ts and
  src/src/types.ts.  JavaScript numbers that hold share counts are modelled
  as ℤ (the code always stores `Math.round` results there), and all other
  numeric quantities (percentages, prices, valuations, money amounts) as ℚ.
  `Math.round` is `fun q => ⌊q + 1/2⌋` (round half toward +∞), matching the
  JS semantics on finite values.  Rational division by zero denotes 0 in ℚ,
  while in JS it produces Infinity/NaN; every theorem that touches a
  division-by-zero state says so in its doc comment and only asserts facts
  on which both semantics agree (share counts that JS also rounds to 0,
  entries appended, no exception raised — the source contains no throw).

  The source field `shareCounter` is initialized to 0 and never read or
  written afterwards; it is omitted.  The local `postMoney` variable in
  `pricedRound` (line 117) is computed but never used; it is omitted too.
-/

set_option maxHeartbeats 1000000

namespace CapSim

/-- Share classes, from src/types: 'common' | 'preferred' | 'option'. -/
inductive ShareType where
  | common
  | preferred
  | option
  deriving DecidableEq, Repr

/-- SAFE kinds, from src/types: 'pre-money' | 'post-money'. -/
inductive SafeType where
  | preMoney
  | postMoney
  deriving DecidableEq, Repr

/-- The source's `cap: number | 'uncapped'` union as a tagged variant. -/
inductive Cap where
  | uncapped
  | capped (value : ℚ)
  deriving DecidableEq, Repr

/-- One cap-table line, from src/types `CapTableEntry`. -/
structure CapTableEntry where
  name : String
  shares : ℤ
  type : ShareType
  deriving DecidableEq, Repr

/-- A SAFE record, from src/types `Safe`; `discount` is the optional field. -/
structure Safe where
  cap : Cap
  amount : ℚ
  name : String
  converted : Bool
  discount : Option ℚ
  type : SafeType
  deriving DecidableEq, Repr

/-- One entry of an `EquitySnapshot`, from src/types. -/
structure SnapshotEntry where
  name : String
  shares : ℤ
  type : ShareType
  percentage : ℚ
  deriving DecidableEq, Repr

/-- A point-in-time snapshot, from src/types `EquitySnapshot`. -/
structure EquitySnapshot where
  label : String
  entries : List SnapshotEntry
  totalShares : ℤ
  deriving DecidableEq, Repr

/-- Founder config row, from src/types `Founder`. -/
structure Founder where
  name : String
  ownership : ℚ
  deriving DecidableEq, Repr

/-- Option-pool config row, from src/types `Pool`. -/
structure Pool where
  note : String
  ownership : ℚ
  deriving DecidableEq, Repr

/-- The mutable state of the `Company` class (capTable, totalShares,
safes, history). -/
structure Company where
  capTable : List CapTableEntry
  totalShares : ℤ
  safes : List Safe
  history : List EquitySnapshot
  deriving DecidableEq, Repr

/-- JavaScript `Math.round`: round half toward positive infinity. -/
def jsRound (q : ℚ) : ℤ := ⌊q + 1/2⌋

/-- `Company._addEntity` (Company.ts lines 36-39): push an entry and add
its shares to the running total. -/
def addEntity (c : Company) (name : String) (shares : ℤ) (type : ShareType) : Company :=
  { c with
      capTable := c.capTable ++ [{ name := name, shares := shares, type := type }],
      totalShares := c.totalShares + shares }

/-- The snapshot value built by `Company._saveSnapshot` (lines 44-56):
percentage is `shares / totalShares * 100` with no zero-guard on
`totalShares`. -/
def snapshotOf (c : Company) (label : String) : EquitySnapshot :=
  { label := label,
    entries := c.capTable.map fun e =>
      { name := e.name, shares := e.shares, type := e.type,
        percentage := (e.shares : ℚ) / (c.totalShares : ℚ) * 100 },
    totalShares := c.totalShares }

/-- `Company._saveSnapshot`: append the snapshot to the history. -/
def saveSnapshot (c : Company) (label : String) : Company :=
  { c with history := c.history ++ [snapshotOf c label] }

/-- The constructor's per-founder step (lines 21-24): a `common` entry of
`round(ownership/100 * base)` shares. -/
def founderStep (initialShareCount : ℚ) (c : Company) (f : Founder) : Company :=
  addEntity c f.name (jsRound (f.ownership / 100 * initialShareCount)) ShareType.common

/-- The constructor's per-pool step (lines 26-29): an `option` entry of
`round(ownership/100 * base)` shares. -/
def poolStep (initialShareCount : ℚ) (c : Company) (p : Pool) : Company :=
  addEntity c p.note (jsRound (p.ownership / 100 * initialShareCount)) ShareType.option

/-- The `Company` constructor (lines 12-34): founders then pools, each at
`round(ownership/100 * initialShareCount)` shares, then one snapshot. -/
def mkCompany (founders : List Founder) (pools : List Pool) (initialShareCount : ℚ) : Company :=
  let c0 : Company := { capTable := [], totalShares := 0, safes := [], history := [] }
  let c1 := founders.foldl (founderStep initialShareCount) c0
  let c2 := pools.foldl (poolStep initialShareCount) c1
  saveSnapshot c2 "Initial Cap Table"

/-- `Company.giveEquity` (lines 64-73): `round(percent/(100-percent) * totalShares)`
new shares, no validation of `percent`. -/
def giveEquity (c : Company) (percent : ℚ) (name : String) (type : ShareType) : Company :=
  let newShares := jsRound (percent / (100 - percent) * (c.totalShares : ℚ))
  saveSnapshot (addEntity c name newShares type) ("Equity Grant: " ++ name)

/-- `Company.signSafe` (lines 83-105): push an unconverted SAFE and record a
snapshot; shares and totalShares untouched.  The source's label also
formats the cap/amount/discount into the string; the label text plays no
role in any property (only that a snapshot differs from its predecessor
at most in its label), so the embedding keeps a shortened label. -/
def signSafe (c : Company) (cap : Cap) (amount : ℚ) (name : String)
    (discount : Option ℚ) (safeType : SafeType) : Company :=
  let c1 := { c with safes := c.safes ++
      [{ cap := cap, amount := amount, name := name, converted := false,
         discount := discount, type := safeType }] }
  saveSnapshot c1 ("SAFE: " ++ name)

/-- JS truthiness of the optional `discount` field: `undefined` and `0`
are both falsy in the source's `s.discount ?` tests. -/
def hasDiscount : Option ℚ → Bool
  | none => false
  | some d => decide (d ≠ 0)

/-- The numeric value of the optional discount (only read when truthy). -/
def discountVal : Option ℚ → ℚ
  | none => 0
  | some d => d

/-- Effective price of an uncapped SAFE:
`s.discount ? pricePerShare * (1 - s.discount/100) : pricePerShare`. -/
def uncappedEffPrice (pricePerShare : ℚ) (discount : Option ℚ) : ℚ :=
  if hasDiscount discount then pricePerShare * (1 - discountVal discount / 100) else pricePerShare

/-- Effective price of a capped SAFE:
`s.discount ? min(capPrice, pricePerShare * (1 - s.discount/100)) : min(capPrice, pricePerShare)`. -/
def cappedEffPrice (capPricePerShare pricePerShare : ℚ) (discount : Option ℚ) : ℚ :=
  if hasDiscount discount then
    min capPricePerShare (pricePerShare * (1 - discountVal discount / 100))
  else min capPricePerShare pricePerShare

/-- One step of the first pass of `pricedRound` (lines 119-138): accumulate
post-money SAFE shares; capped SAFEs divide the cap by the pre-round total
plus the accumulator so far. -/
def postMoneyPassStep (totalShares : ℤ) (pricePerShare : ℚ) (acc : ℤ) (s : Safe) : ℤ :=
  if s.converted = false ∧ s.type = SafeType.postMoney then
    match s.cap with
    | Cap.uncapped =>
        acc + jsRound (s.amount / uncappedEffPrice pricePerShare s.discount)
    | Cap.capped v =>
        acc + jsRound (s.amount /
          cappedEffPrice (v / ((totalShares + acc : ℤ) : ℚ)) pricePerShare s.discount)
  else acc

/-- The first pass of `pricedRound`: the final `postMoneySafeShares`
accumulator.  `this.totalShares` is fixed during this pass. -/
def postMoneySafeSharesOf (c : Company) (pricePerShare : ℚ) : ℤ :=
  c.safes.foldl (postMoneyPassStep c.totalShares pricePerShare) 0

/-- The per-instrument share count computed in the conversion pass
(lines 143-175).  `liveTotal` is the value of `this.totalShares` at the
moment the instrument is processed (it grows as earlier instruments in the
same pass convert); `pmShares` is the final first-pass accumulator. -/
def safeConversionShares (liveTotal pmShares : ℤ) (pricePerShare : ℚ) (s : Safe) : ℤ :=
  match s.type, s.cap with
  | SafeType.postMoney, Cap.uncapped =>
      jsRound (s.amount / uncappedEffPrice pricePerShare s.discount)
  | SafeType.postMoney, Cap.capped v =>
      jsRound (s.amount /
        cappedEffPrice (v / ((liveTotal + pmShares : ℤ) : ℚ)) pricePerShare s.discount)
  | SafeType.preMoney, Cap.uncapped =>
      jsRound (s.amount / uncappedEffPrice pricePerShare s.discount)
  | SafeType.preMoney, Cap.capped v =>
      jsRound (s.amount / cappedEffPrice (v / (liveTotal : ℚ)) pricePerShare s.discount)

/-- One step of the conversion pass (lines 141-182): skip converted
instruments; otherwise compute shares and, when positive, append a
preferred `"<name> (SAFE)"` entry and flip `converted`. -/
def convertSafeStep (pmShares : ℤ) (pricePerShare : ℚ)
    (st : Company × List Safe) (s : Safe) : Company × List Safe :=
  if s.converted then (st.1, st.2 ++ [s])
  else
    let shares := safeConversionShares st.1.totalShares pmShares pricePerShare s
    if 0 < shares then
      (addEntity st.1 (s.name ++ " (SAFE)") shares ShareType.preferred,
       st.2 ++ [{ s with converted := true }])
    else (st.1, st.2 ++ [s])

/-- `Company.pricedRound` (lines 113-191): price per share from the
pre-round total, the post-money pre-pass, the conversion pass, the new
round's lead shares, and one snapshot (its label, which the source fills
with the formatted valuations, is shortened here; no property depends on
label text). -/
def pricedRound (c : Company) (preMoneyValuation newMoney : ℚ) (name : String) : Company :=
  let pricePerShare := preMoneyValuation / (c.totalShares : ℚ)
  let pmShares := postMoneySafeSharesOf c pricePerShare
  let res := c.safes.foldl (convertSafeStep pmShares pricePerShare) (c, [])
  let c1 := { res.1 with safes := res.2 }
  let seriesShares := jsRound (newMoney / pricePerShare)
  let c2 := addEntity c1 name seriesShares ShareType.preferred
  saveSnapshot c2 (name ++ ": priced round")

/-- The states a `Company` object can actually be in: constructed, then
mutated by the three public operations in any order. -/
inductive Reachable : Company → Prop where
  | init (founders : List Founder) (pools : List Pool) (base : ℚ) :
      Reachable (mkCompany founders pools base)
  | give (c : Company) (percent : ℚ) (name : String) (type : ShareType) :
      Reachable c → Reachable (giveEquity c percent name type)
  | safe (c : Company) (cap : Cap) (amount : ℚ) (name : String)
      (discount : Option ℚ) (ty : SafeType) :
      Reachable c → Reachable (signSafe c cap amount name discount ty)
  | round (c : Company) (pre new : ℚ) (name : String) :
      Reachable c → Reachable (pricedRound c pre new name)

/-- Sum of the share counts of a list of cap-table entries. -/
def sharesSum (l : List CapTableEntry) : ℤ := (l.map CapTableEntry.shares).sum

attribute [ext] Company EquitySnapshot

/-- Refinement target for C5, written from the spec's words: the claimed
effective price of a capped pre-money SAFE,
`min(cap / totalShares, round price x (1 - discount/100) when a discount
is present, otherwise round price)`. -/
def preMoneyCappedClaimPrice (capV T pricePerShare : ℚ) (discount : Option ℚ) : ℚ :=
  match discount with
  | some d => min (capV / T) (pricePerShare * (1 - d / 100))
  | none => min (capV / T) pricePerShare

/-- The live cap table matches the running total: `totalShares` equals
the sum of all entry share counts. -/
def totalMatches (c : Company) : Prop := c.totalShares = sharesSum c.capTable

/-- A snapshot is internally consistent: its recorded `totalShares` is the
sum of its entries' shares, and whenever that total is nonzero the
recorded percentages sum to exactly 100. -/
def snapInv (s : EquitySnapshot) : Prop :=
  s.totalShares = (s.entries.map SnapshotEntry.shares).sum
  ∧ (s.totalShares ≠ 0 → (s.entries.map SnapshotEntry.percentage).sum = 100)

/-- Every snapshot in the history is internally consistent. -/
def histInv (c : Company) : Prop := ∀ s ∈ c.history, snapInv s

/-- The sequence of `totalShares` values recorded in the history, oldest
first. -/
def histTotals (c : Company) : List ℤ := c.history.map EquitySnapshot.totalShares

/-- The states reachable when every call satisfies the spec's
preconditions: founder/pool ownership nonnegative and a nonnegative share
base, giveEquity percent in [0,100), SAFE amount positive with positive
cap (when capped) and discount in [0,100) (when present), and positive
valuations and new money in priced rounds. -/
inductive ValidReachable : Company → Prop where
  | init (founders : List Founder) (pools : List Pool) (base : ℚ) :
      (∀ f ∈ founders, 0 ≤ f.ownership) → (∀ p ∈ pools, 0 ≤ p.ownership) → 0 ≤ base →
      ValidReachable (mkCompany founders pools base)
  | give (c : Company) (percent : ℚ) (name : String) (type : ShareType) :
      ValidReachable c → 0 ≤ percent → percent < 100 →
      ValidReachable (giveEquity c percent name type)
  | safe (c : Company) (cap : Cap) (amount : ℚ) (name : String)
      (discount : Option ℚ) (ty : SafeType) :
      ValidReachable c → 0 < amount →
      (∀ v, cap = Cap.capped v → 0 < v) →
      (∀ d, discount = some d → 0 ≤ d ∧ d < 100) →
      ValidReachable (signSafe c cap amount name discount ty)
  | round (c : Company) (pre neu : ℚ) (name : String) :
      ValidReachable c → 0 < pre → 0 < neu →
      ValidReachable (pricedRound c pre neu name)

/-- The spec's validity conditions on a recorded SAFE: positive-or-zero
amount, nonnegative cap when capped, discount within [0,100) when
present. -/
def ValidSafe (s : Safe) : Prop :=
  0 ≤ s.amount
  ∧ (∀ v, s.cap = Cap.capped v → 0 ≤ v)
  ∧ (∀ d, s.discount = some d → 0 ≤ d ∧ d < 100)

/-- Refinement target for C8, written from the spec's words: the
per-instrument outcome of the conversion pass.  `t` is the running total
at the moment an instrument is considered.  An already-converted
instrument is skipped.  An unconverted instrument whose computed count is
positive is flipped to converted and contributes one preferred
`"<name> (SAFE)"` entry of exactly that count; one whose count is exactly
zero is left unchanged and contributes no entry, and this is not an
error. -/
inductive ConversionOutcome (pm : ℤ) (pps : ℚ) :
    ℤ → List Safe → List Safe → List CapTableEntry → Prop where
  | nil (t : ℤ) : ConversionOutcome pm pps t [] [] []
  | alreadyConverted (t : ℤ) (s : Safe) (rest rest2 : List Safe) (es : List CapTableEntry) :
      s.converted = true → ConversionOutcome pm pps t rest rest2 es →
      ConversionOutcome pm pps t (s :: rest) (s :: rest2) es
  | converts (t : ℤ) (s : Safe) (rest rest2 : List Safe) (es : List CapTableEntry) :
      s.converted = false → 0 < safeConversionShares t pm pps s →
      ConversionOutcome pm pps (t + safeConversionShares t pm pps s) rest rest2 es →
      ConversionOutcome pm pps t (s :: rest) ({ s with converted := true } :: rest2)
        ({ name := s.name ++ " (SAFE)", shares := safeConversionShares t pm pps s,
           type := ShareType.preferred } :: es)
  | zeroShares (t : ℤ) (s : Safe) (rest rest2 : List Safe) (es : List CapTableEntry) :
      s.converted = false → safeConversionShares t pm pps s = 0 →
      ConversionOutcome pm pps t rest rest2 es →
      ConversionOutcome pm pps t (s :: rest) (s :: rest2) es

theorem sharesSum_nil : sharesSum [] = 0 := rfl

theorem sharesSum_cons (e : CapTableEntry) (l : List CapTableEntry) :
    sharesSum (e :: l) = e.shares + sharesSum l := by
  simp [sharesSum]

/-- A conversion-pass step on an already-converted instrument changes
nothing and copies the instrument over. -/
theorem convertSafeStep_converted (pm : ℤ) (pps : ℚ) (st : Company × List Safe) (s : Safe)
    (h : s.converted = true) : convertSafeStep pm pps st s = (st.1, st.2 ++ [s]) := by
  simp [convertSafeStep, h]

/-- A conversion-pass step on an unconverted instrument whose computed
share count is positive: append the preferred entry and flip the flag. -/
theorem convertSafeStep_positive (pm : ℤ) (pps : ℚ) (st : Company × List Safe) (s : Safe)
    (h : s.converted = false) (hn : 0 < safeConversionShares st.1.totalShares pm pps s) :
    convertSafeStep pm pps st s
      = (addEntity st.1 (s.name ++ " (SAFE)") (safeConversionShares st.1.totalShares pm pps s)
           ShareType.preferred,
         st.2 ++ [{ s with converted := true }]) := by
  simp [convertSafeStep, h, hn]

/-- A conversion-pass step on an unconverted instrument whose computed
share count is not positive: nothing happens. -/
theorem convertSafeStep_nonpositive (pm : ℤ) (pps : ℚ) (st : Company × List Safe) (s : Safe)
    (h : s.converted = false) (hn : ¬ 0 < safeConversionShares st.1.totalShares pm pps s) :
    convertSafeStep pm pps st s = (st.1, st.2 ++ [s]) := by
  simp [convertSafeStep, h, hn]

/-- Folding the conversion pass over instruments that are all already
converted leaves the company untouched and copies the instruments. -/
theorem convert_foldl_converted (pm : ℤ) (pps : ℚ) (l : List Safe) :
    ∀ (c : Company) (acc : List Safe), (∀ s ∈ l, s.converted = true) →
      l.foldl (convertSafeStep pm pps) (c, acc) = (c, acc ++ l) := by
  induction l with
  | nil => intro c acc _; simp
  | cons s t ih =>
    intro c acc h
    rw [List.foldl_cons, convertSafeStep_converted pm pps (c, acc) s (h s (by simp)),
      ih c (acc ++ [s]) (fun x hx => h x (by simp [hx]))]
    simp

/-- General shape of the conversion pass: the fold only appends entries to
the cap table (all preferred, all with positive share counts), adds their
shares to the total, leaves history and the (stale) safes field of the
company untouched, and appends the processed instruments to the
accumulator. -/
theorem convert_foldl_exists (pm : ℤ) (pps : ℚ) (l : List Safe) :
    ∀ (c : Company) (acc : List Safe),
      ∃ (es : List CapTableEntry) (l2 : List Safe),
        l.foldl (convertSafeStep pm pps) (c, acc)
          = ({ c with
                capTable := c.capTable ++ es
                totalShares := c.totalShares + sharesSum es }, acc ++ l2)
        ∧ ∀ e ∈ es, 0 < e.shares ∧ e.type = ShareType.preferred := by
  induction l with
  | nil =>
    intro c acc
    exact ⟨[], [], by simp [sharesSum], by simp⟩
  | cons s t ih =>
    intro c acc
    by_cases hc : s.converted
    · obtain ⟨es, l2, heq, hpos⟩ := ih c (acc ++ [s])
      refine ⟨es, s :: l2, ?_, hpos⟩
      rw [List.foldl_cons, convertSafeStep_converted pm pps (c, acc) s hc, heq]
      simp
    · have hcf : s.converted = false := by simpa using hc
      by_cases hn : 0 < safeConversionShares c.totalShares pm pps s
      · obtain ⟨es, l2, heq, hpos⟩ := ih
          (addEntity c (s.name ++ " (SAFE)")
            (safeConversionShares c.totalShares pm pps s) ShareType.preferred)
          (acc ++ [{ s with converted := true }])
        refine ⟨{ name := s.name ++ " (SAFE)",
                  shares := safeConversionShares c.totalShares pm pps s,
                  type := ShareType.preferred } :: es,
                { s with converted := true } :: l2, ?_, ?_⟩
        · rw [List.foldl_cons, convertSafeStep_positive pm pps (c, acc) s hcf hn, heq]
          refine Prod.ext ?_ (by simp)
          ext : 1 <;> simp [addEntity, sharesSum_cons] <;> ring
        · intro e he
          rcases List.mem_cons.mp he with h1 | h2
          · subst h1; exact ⟨hn, rfl⟩
          · exact hpos e h2
      · obtain ⟨es, l2, heq, hpos⟩ := ih c (acc ++ [s])
        refine ⟨es, s :: l2, ?_, hpos⟩
        rw [List.foldl_cons, convertSafeStep_nonpositive pm pps (c, acc) s hcf hn, heq]
        simp

/-- The cap table after a priced round: whatever the conversion pass
produced, followed by the round's lead entry. -/
theorem pricedRound_capTable (c : Company) (pre neu : ℚ) (nm : String) :
    (pricedRound c pre neu nm).capTable
      = (c.safes.foldl (convertSafeStep (postMoneySafeSharesOf c (pre / (c.totalShares : ℚ)))
            (pre / (c.totalShares : ℚ))) (c, [])).1.capTable
        ++ [{ name := nm, shares := jsRound (neu / (pre / (c.totalShares : ℚ))),
              type := ShareType.preferred }] := by
  simp [pricedRound, addEntity, saveSnapshot]

/-- The outstanding-instrument list after a priced round is the second
component of the conversion fold. -/
theorem pricedRound_safes (c : Company) (pre neu : ℚ) (nm : String) :
    (pricedRound c pre neu nm).safes
      = (c.safes.foldl (convertSafeStep (postMoneySafeSharesOf c (pre / (c.totalShares : ℚ)))
            (pre / (c.totalShares : ℚ))) (c, [])).2 := by
  simp [pricedRound, addEntity, saveSnapshot]

/-- When the first unconverted instrument in the round converts with a
positive share count, its preferred entry lands right after the pre-round
cap table; everything later in the pass only appends further entries. -/
theorem convert_foldl_first_unconverted (pm : ℤ) (pps : ℚ) (done rest : List Safe) (s : Safe)
    (c : Company) (hdone : ∀ x ∈ done, x.converted = true) (hconv : s.converted = false)
    (hn : 0 < safeConversionShares c.totalShares pm pps s) :
    ∃ es : List CapTableEntry,
      ((done ++ s :: rest).foldl (convertSafeStep pm pps) (c, [])).1.capTable
        = c.capTable ++
          { name := s.name ++ " (SAFE)", shares := safeConversionShares c.totalShares pm pps s,
            type := ShareType.preferred } :: es := by
  rw [List.foldl_append, convert_foldl_converted pm pps done c [] hdone]
  rw [List.nil_append, List.foldl_cons, convertSafeStep_positive pm pps (c, done) s hconv hn]
  obtain ⟨es, l2, heq, _⟩ := convert_foldl_exists pm pps rest
    (addEntity c (s.name ++ " (SAFE)") (safeConversionShares c.totalShares pm pps s)
      ShareType.preferred)
    (done ++ [{ s with converted := true }])
  rw [heq]
  exact ⟨es, by simp [addEntity]⟩


/-- The code's capped effective price agrees with the spec's min-formula
once the denominator is fixed: the source's falsy test on `discount`
conflates a present 0% discount with no discount, but both sides then
reduce to `min(capPrice, pricePerShare)`. -/
theorem cappedEffPrice_eq_claim (capV T pps : ℚ) (disc : Option ℚ) :
    cappedEffPrice (capV / T) pps disc = preMoneyCappedClaimPrice capV T pps disc := by
  cases disc with
  | none => simp [cappedEffPrice, preMoneyCappedClaimPrice, hasDiscount]
  | some d =>
    by_cases hd : d = 0
    · subst hd
      simp [cappedEffPrice, preMoneyCappedClaimPrice, hasDiscount, discountVal]
    · simp [cappedEffPrice, preMoneyCappedClaimPrice, hasDiscount, discountVal, hd]

/-- C5 counterexample: a round with a post-money uncapped SAFE converting
first (100,000 shares) and then a capped pre-money SAFE (cap 5,000,000,
amount 5,000,000, no discount) on pre-round totalShares 1,000,000 at
pricePerShare 10.  The code divides the cap by the LIVE total 1,100,000
(pre-round total plus the earlier conversion), appending 1,100,000 shares,
whereas the claimed formula `min(cap / pre-round totalShares, round
price)` would give 1,000,000 shares. -/
theorem preMoney_capped_price_counterexample :
    (pricedRound
        { capTable := [{ name := "F", shares := 1000000, type := ShareType.common }],
          totalShares := 1000000,
          safes := [{ cap := Cap.uncapped, amount := 1000000, name := "P", converted := false,
                      discount := none, type := SafeType.postMoney },
                    { cap := Cap.capped 5000000, amount := 5000000, name := "Q", converted := false,
                      discount := none, type := SafeType.preMoney }],
          history := [] } 10000000 2000000 "A").capTable
      = [{ name := "F", shares := 1000000, type := ShareType.common },
         { name := "P (SAFE)", shares := 100000, type := ShareType.preferred },
         { name := "Q (SAFE)", shares := 1100000, type := ShareType.preferred },
         { name := "A", shares := 200000, type := ShareType.preferred }]
    ∧ jsRound ((5000000 : ℚ)
          / preMoneyCappedClaimPrice 5000000 1000000 ((10000000 : ℚ) / 1000000) none)
        = 1000000
    ∧ (1100000 : ℤ) ≠ 1000000 := by
  refine ⟨?_, by norm_num [jsRound, preMoneyCappedClaimPrice], by norm_num⟩
  norm_num [pricedRound, postMoneySafeSharesOf, postMoneyPassStep, convertSafeStep,
    safeConversionShares, uncappedEffPrice, cappedEffPrice, hasDiscount, discountVal,
    addEntity, saveSnapshot, snapshotOf, jsRound]
  exact ⟨rfl, rfl⟩

/-- C5 (amended): the per-instrument share count of a capped pre-money
SAFE in the conversion pass is `round(amount / min(cap / liveTotal,
discounted-or-plain round price))`, where `liveTotal` is `this.totalShares`
at the moment the instrument is processed — the pre-round total plus the
shares of instruments converted earlier in the same pass — not always the
pre-round total; and when the instrument is the first unconverted one in
the list (no earlier conversion in this round), `liveTotal` IS the
pre-round total and the claim's original formula gives the shares of the
appended `"<name> (SAFE)"` entry. -/
theorem pricedRound_preMoney_capped (c : Company) (pre neu : ℚ) (nm : String)
    (done rest : List Safe) (s : Safe) (v : ℚ)
    (hsafes : c.safes = done ++ s :: rest)
    (hdone : ∀ x ∈ done, x.converted = true)
    (hconv : s.converted = false)
    (hty : s.type = SafeType.preMoney) (hcap : s.cap = Cap.capped v)
    (hpos : 0 < jsRound (s.amount /
        preMoneyCappedClaimPrice v (c.totalShares : ℚ) (pre / (c.totalShares : ℚ)) s.discount)) :
    (∀ liveTotal pm2 : ℤ,
        safeConversionShares liveTotal pm2 (pre / (c.totalShares : ℚ)) s
          = jsRound (s.amount /
              preMoneyCappedClaimPrice v (liveTotal : ℚ) (pre / (c.totalShares : ℚ)) s.discount))
    ∧ ∃ tail : List CapTableEntry,
        (pricedRound c pre neu nm).capTable
          = c.capTable ++
            { name := s.name ++ " (SAFE)",
              shares := jsRound (s.amount /
                preMoneyCappedClaimPrice v (c.totalShares : ℚ) (pre / (c.totalShares : ℚ)) s.discount),
              type := ShareType.preferred } :: tail := by
  have hshape : ∀ liveTotal pm2 : ℤ,
      safeConversionShares liveTotal pm2 (pre / (c.totalShares : ℚ)) s
        = jsRound (s.amount /
            preMoneyCappedClaimPrice v (liveTotal : ℚ) (pre / (c.totalShares : ℚ)) s.discount) := by
    intro liveTotal pm2
    obtain ⟨scap, samount, sname, sconv, sdisc, sty⟩ := s
    dsimp only at hty hcap
    subst hty
    subst hcap
    simp only [safeConversionShares]
    rw [cappedEffPrice_eq_claim]
  refine ⟨hshape, ?_⟩
  have hn : 0 < safeConversionShares c.totalShares
      (postMoneySafeSharesOf c (pre / (c.totalShares : ℚ))) (pre / (c.totalShares : ℚ)) s := by
    rw [hshape c.totalShares (postMoneySafeSharesOf c (pre / (c.totalShares : ℚ)))]
    exact hpos
  obtain ⟨es, hfold⟩ := convert_foldl_first_unconverted
    (postMoneySafeSharesOf c (pre / (c.totalShares : ℚ))) (pre / (c.totalShares : ℚ))
    done rest s c hdone hconv hn
  rw [hshape c.totalShares (postMoneySafeSharesOf c (pre / (c.totalShares : ℚ)))] at hfold
  refine ⟨es ++ [{ name := nm, shares := jsRound (neu / (pre / (c.totalShares : ℚ))),
                   type := ShareType.preferred }], ?_⟩
  rw [pricedRound_capTable, hsafes, hfold]
  simp

/-- Witness for C5: a sole capped pre-money SAFE (cap 5,000,000, 10%
discount, amount 100,000) against pre-round totalShares 1,000,000 and
pricePerShare 10 converts at effective price 5 = min(5, 9), yielding a
20,000-share preferred entry. -/
theorem pricedRound_preMoney_capped_witness :
    preMoneyCappedClaimPrice 5000000 1000000 ((10000000 : ℚ) / 1000000) (some 10) = min 5 9
    ∧ min (5 : ℚ) 9 = 5
    ∧ ∃ tail : List CapTableEntry,
        (pricedRound
            { capTable := [{ name := "F", shares := 1000000, type := ShareType.common }],
              totalShares := 1000000,
              safes := [{ cap := Cap.capped 5000000, amount := 100000, name := "I",
                          converted := false, discount := some 10, type := SafeType.preMoney }],
              history := [] } 10000000 2000000 "Series A").capTable
          = { name := "F", shares := 1000000, type := ShareType.common } ::
            { name := "I (SAFE)", shares := 20000, type := ShareType.preferred } :: tail := by
  refine ⟨by norm_num [preMoneyCappedClaimPrice], by norm_num, ?_⟩
  obtain ⟨tail, ht⟩ := (pricedRound_preMoney_capped
    { capTable := [{ name := "F", shares := 1000000, type := ShareType.common }],
      totalShares := 1000000,
      safes := [{ cap := Cap.capped 5000000, amount := 100000, name := "I",
                  converted := false, discount := some 10, type := SafeType.preMoney }],
      history := [] } 10000000 2000000 "Series A" [] []
    { cap := Cap.capped 5000000, amount := 100000, name := "I",
      converted := false, discount := some 10, type := SafeType.preMoney } 5000000
    (by simp) (by simp) rfl rfl rfl
    (by norm_num [jsRound, preMoneyCappedClaimPrice])).2
  refine ⟨tail, ?_⟩
  rw [ht]
  norm_num [preMoneyCappedClaimPrice, jsRound]
  rfl

/-- An uncapped post-money SAFE's conversion share count depends only on
its own amount and discount and on the round price: neither the live
total nor the first-pass accumulator enters the formula. -/
theorem safeConversionShares_uncapped_postMoney (pps : ℚ) (s : Safe)
    (hty : s.type = SafeType.postMoney) (hcap : s.cap = Cap.uncapped) (t pm : ℤ) :
    safeConversionShares t pm pps s = jsRound (s.amount / uncappedEffPrice pps s.discount) := by
  obtain ⟨scap, samount, sname, sconv, sdisc, sty⟩ := s
  dsimp only at hty hcap
  subst hty
  subst hcap
  simp only [safeConversionShares]

/-- Conversion pass over exactly two unconverted instruments, both
post-money and uncapped, with equal amount and discount, surrounded by
already-converted instruments: both convert to the same count and the cap
table gains exactly the two identical-sized entries (or none when the
count is not positive). -/
theorem convert_foldl_two_uncapped (pm : ℤ) (pps : ℚ) (l1 l2 l3 : List Safe) (s1 s2 : Safe)
    (c : Company)
    (hl1 : ∀ x ∈ l1, x.converted = true) (hl2 : ∀ x ∈ l2, x.converted = true)
    (hl3 : ∀ x ∈ l3, x.converted = true)
    (hc1 : s1.converted = false) (hc2 : s2.converted = false)
    (ht1 : s1.type = SafeType.postMoney) (ht2 : s2.type = SafeType.postMoney)
    (hk1 : s1.cap = Cap.uncapped) (hk2 : s2.cap = Cap.uncapped)
    (ha : s1.amount = s2.amount) (hd : s1.discount = s2.discount) :
    ((l1 ++ s1 :: (l2 ++ s2 :: l3)).foldl (convertSafeStep pm pps) (c, [])).1.capTable
      = c.capTable ++
        (if 0 < jsRound (s1.amount / uncappedEffPrice pps s1.discount) then
          [{ name := s1.name ++ " (SAFE)",
             shares := jsRound (s1.amount / uncappedEffPrice pps s1.discount),
             type := ShareType.preferred },
           { name := s2.name ++ " (SAFE)",
             shares := jsRound (s1.amount / uncappedEffPrice pps s1.discount),
             type := ShareType.preferred }]
         else []) := by
  have key1 := safeConversionShares_uncapped_postMoney pps s1 ht1 hk1
  have key2 : ∀ t pm2 : ℤ, safeConversionShares t pm2 pps s2
      = jsRound (s1.amount / uncappedEffPrice pps s1.discount) := by
    intro t pm2
    rw [safeConversionShares_uncapped_postMoney pps s2 ht2 hk2, ← ha, ← hd]
  rw [List.foldl_append, convert_foldl_converted pm pps l1 c [] hl1, List.nil_append,
    List.foldl_cons]
  by_cases hn : 0 < jsRound (s1.amount / uncappedEffPrice pps s1.discount)
  · rw [convertSafeStep_positive pm pps (c, l1) s1 hc1 (by rw [key1]; exact hn)]
    rw [key1 c.totalShares pm]
    rw [List.foldl_append, convert_foldl_converted pm pps l2 _ _ hl2, List.foldl_cons]
    rw [convertSafeStep_positive pm pps _ s2 hc2 (by rw [key2]; exact hn)]
    rw [key2]
    rw [convert_foldl_converted pm pps l3 _ _ hl3]
    simp [addEntity, hn]
  · rw [convertSafeStep_nonpositive pm pps (c, l1) s1 hc1 (by rw [key1]; exact hn)]
    rw [List.foldl_append, convert_foldl_converted pm pps l2 _ _ hl2, List.foldl_cons]
    rw [convertSafeStep_nonpositive pm pps _ s2 hc2 (by rw [key2]; exact hn)]
    rw [convert_foldl_converted pm pps l3 _ _ hl3]
    simp [hn]

/-- C6: when exactly two unconverted SAFEs are outstanding in a priced
round, both post-money and uncapped, with equal amount and equal discount
(any other instruments in the list already converted), the two convert to
equal share counts; the count formula ignores the live total and the
first-pass accumulator entirely (first conjunct, quantified over all
totals/offsets), so neither SAFE's denominator involves the other's
accumulated shares, and the cap table gains two identical-sized preferred
entries. -/
theorem pricedRound_two_uncapped_postMoney_equal (c : Company) (pre neu : ℚ) (nm : String)
    (l1 l2 l3 : List Safe) (s1 s2 : Safe)
    (hsafes : c.safes = l1 ++ s1 :: (l2 ++ s2 :: l3))
    (hl1 : ∀ x ∈ l1, x.converted = true) (hl2 : ∀ x ∈ l2, x.converted = true)
    (hl3 : ∀ x ∈ l3, x.converted = true)
    (hc1 : s1.converted = false) (hc2 : s2.converted = false)
    (ht1 : s1.type = SafeType.postMoney) (ht2 : s2.type = SafeType.postMoney)
    (hk1 : s1.cap = Cap.uncapped) (hk2 : s2.cap = Cap.uncapped)
    (ha : s1.amount = s2.amount) (hd : s1.discount = s2.discount) :
    (∀ t1 pm1 t2 pm2 : ℤ,
        safeConversionShares t1 pm1 (pre / (c.totalShares : ℚ)) s1
          = safeConversionShares t2 pm2 (pre / (c.totalShares : ℚ)) s2)
    ∧ (pricedRound c pre neu nm).capTable
        = c.capTable ++
          (if 0 < jsRound (s1.amount / uncappedEffPrice (pre / (c.totalShares : ℚ)) s1.discount) then
            [{ name := s1.name ++ " (SAFE)",
               shares := jsRound (s1.amount / uncappedEffPrice (pre / (c.totalShares : ℚ)) s1.discount),
               type := ShareType.preferred },
             { name := s2.name ++ " (SAFE)",
               shares := jsRound (s1.amount / uncappedEffPrice (pre / (c.totalShares : ℚ)) s1.discount),
               type := ShareType.preferred }]
           else [])
          ++ [{ name := nm, shares := jsRound (neu / (pre / (c.totalShares : ℚ))),
                type := ShareType.preferred }] := by
  constructor
  · intro t1 pm1 t2 pm2
    rw [safeConversionShares_uncapped_postMoney _ s1 ht1 hk1,
      safeConversionShares_uncapped_postMoney _ s2 ht2 hk2, ha, hd]
  · rw [pricedRound_capTable, hsafes,
      convert_foldl_two_uncapped _ _ l1 l2 l3 s1 s2 c hl1 hl2 hl3 hc1 hc2 ht1 ht2 hk1 hk2 ha hd]

/-- Witness for C6: two post-money uncapped SAFEs of 100,000 each with no
discount, against totalShares 1,000,000 at pricePerShare 10, both convert
to exactly 10,000 shares. -/
theorem pricedRound_two_uncapped_postMoney_equal_witness :
    (pricedRound
        { capTable := [{ name := "F", shares := 1000000, type := ShareType.common }],
          totalShares := 1000000,
          safes := [{ cap := Cap.uncapped, amount := 100000, name := "A", converted := false,
                      discount := none, type := SafeType.postMoney },
                    { cap := Cap.uncapped, amount := 100000, name := "B", converted := false,
                      discount := none, type := SafeType.postMoney }],
          history := [] } 10000000 2000000 "Series A").capTable
      = [{ name := "F", shares := 1000000, type := ShareType.common },
         { name := "A (SAFE)", shares := 10000, type := ShareType.preferred },
         { name := "B (SAFE)", shares := 10000, type := ShareType.preferred },
         { name := "Series A", shares := 200000, type := ShareType.preferred }] := by
  have h := (pricedRound_two_uncapped_postMoney_equal
    { capTable := [{ name := "F", shares := 1000000, type := ShareType.common }],
      totalShares := 1000000,
      safes := [{ cap := Cap.uncapped, amount := 100000, name := "A", converted := false,
                  discount := none, type := SafeType.postMoney },
                { cap := Cap.uncapped, amount := 100000, name := "B", converted := false,
                  discount := none, type := SafeType.postMoney }],
      history := [] } 10000000 2000000 "Series A" [] [] []
    { cap := Cap.uncapped, amount := 100000, name := "A", converted := false,
      discount := none, type := SafeType.postMoney }
    { cap := Cap.uncapped, amount := 100000, name := "B", converted := false,
      discount := none, type := SafeType.postMoney }
    rfl (by simp) (by simp) (by simp) rfl rfl rfl rfl rfl rfl rfl rfl).2
  rw [h]
  norm_num [uncappedEffPrice, hasDiscount, jsRound]
  exact ⟨rfl, rfl⟩

/-- C2: for every ledger with current total `T` and every `percent` in
`[0,100)`, `giveEquity` appends exactly one new entry with
`shares = round(percent/(100-percent) * T)` and adds that amount to the
total; and the exact (unrounded) issuance `x = percent/(100-percent) * T`
satisfies `x / (T + x) * 100 = percent`, so the new stake is `percent`% of
the post-issuance total up to rounding. -/
theorem giveEquity_grant (c : Company) (p : ℚ) (nm : String) (ty : ShareType)
    (h0 : 0 ≤ p) (h1 : p < 100) :
    (giveEquity c p nm ty).capTable
        = c.capTable ++
          [{ name := nm, shares := jsRound (p / (100 - p) * (c.totalShares : ℚ)), type := ty }]
    ∧ (giveEquity c p nm ty).totalShares
        = c.totalShares + jsRound (p / (100 - p) * (c.totalShares : ℚ))
    ∧ ((c.totalShares : ℚ) ≠ 0 →
        p / (100 - p) * (c.totalShares : ℚ)
          / ((c.totalShares : ℚ) + p / (100 - p) * (c.totalShares : ℚ)) * 100 = p) := by
  have h100 : (100 : ℚ) - p ≠ 0 := sub_ne_zero.mpr (ne_of_gt h1)
  refine ⟨by simp [giveEquity, addEntity, saveSnapshot], by simp [giveEquity, addEntity, saveSnapshot], ?_⟩
  intro hT
  have hsum : (c.totalShares : ℚ) + p / (100 - p) * (c.totalShares : ℚ)
      = (c.totalShares : ℚ) * 100 / (100 - p) := by
    field_simp
    ring
  rw [hsum]
  have hne : (c.totalShares : ℚ) * 100 / (100 - p) ≠ 0 :=
    div_ne_zero (mul_ne_zero hT (by norm_num)) h100
  field_simp
  ring

/-- Witness for C2: `giveEquity(10, "X")` on totalShares = 900,000 creates
an entry of exactly 100,000 shares, and 100,000 is exactly 10% of the new
total 1,000,000. -/
theorem giveEquity_grant_witness :
    (giveEquity { capTable := [{ name := "F", shares := 900000, type := ShareType.common }],
                  totalShares := 900000, safes := [], history := [] } 10 "X" ShareType.common).capTable
      = [{ name := "F", shares := 900000, type := ShareType.common },
         { name := "X", shares := 100000, type := ShareType.common }]
    ∧ (giveEquity { capTable := [{ name := "F", shares := 900000, type := ShareType.common }],
                    totalShares := 900000, safes := [], history := [] } 10 "X" ShareType.common).totalShares
        = 1000000
    ∧ (100000 : ℚ) / 1000000 * 100 = 10 := by
  have h := giveEquity_grant
    { capTable := [{ name := "F", shares := 900000, type := ShareType.common }],
      totalShares := 900000, safes := [], history := [] } 10 "X" ShareType.common
    (by norm_num) (by norm_num)
  refine ⟨?_, ?_, by norm_num⟩
  · rw [h.1]
    norm_num [jsRound]
  · rw [h.2.1]
    norm_num [jsRound]

/-- C3 (code behavior at the failing input): `giveEquity(150, "X")` on a
ledger with totalShares = 900,000 does not fail: it silently appends an
entry with -2,700,000 shares, drives totalShares to -1,800,000, and records
a snapshot.  This contradicts the claimed fail-fast/no-mutation behavior. -/
theorem giveEquity_invalid_percent_mutates :
    (giveEquity { capTable := [{ name := "F", shares := 900000, type := ShareType.common }],
                  totalShares := 900000, safes := [], history := [] } 150 "X" ShareType.common)
      = { capTable := [{ name := "F", shares := 900000, type := ShareType.common },
                       { name := "X", shares := -2700000, type := ShareType.common }],
          totalShares := -1800000, safes := [],
          history := [{ label := "Equity Grant: X",
                        entries := [{ name := "F", shares := 900000, type := ShareType.common,
                                      percentage := -50 },
                                    { name := "X", shares := -2700000, type := ShareType.common,
                                      percentage := 150 }],
                        totalShares := -1800000 }] } := by
  norm_num [giveEquity, addEntity, saveSnapshot, snapshotOf, jsRound]
  rfl

/-- C4 (code behavior at the failing input): a priced round on a company
with totalShares = 0 does not fail: `pricePerShare = 5,000,000 / 0`
(Infinity in JS, totalized to 0 in ℚ — the rounded series share count is 0
under both readings), a 0-share "Series A" entry is appended and a second
snapshot is recorded.  The state changes and no error is raised,
contradicting the claimed fail-fast/no-mutation behavior. -/
theorem pricedRound_zero_total_mutates :
    (pricedRound (mkCompany [] [] 1000000) 5000000 1000000 "Series A").capTable
        = [{ name := "Series A", shares := 0, type := ShareType.preferred }]
    ∧ (pricedRound (mkCompany [] [] 1000000) 5000000 1000000 "Series A").totalShares = 0
    ∧ (pricedRound (mkCompany [] [] 1000000) 5000000 1000000 "Series A").history.length = 2 := by
  norm_num [pricedRound, postMoneySafeSharesOf, postMoneyPassStep, convertSafeStep,
    safeConversionShares, uncappedEffPrice, cappedEffPrice, hasDiscount, discountVal,
    mkCompany, founderStep, poolStep, addEntity, saveSnapshot, snapshotOf, jsRound]

/-- C10: a company created with a single founder whose ownership rounds to
0 shares has a non-empty cap table with totalShares = 0, and the
constructor still records a snapshot whose percentage was computed by the
unguarded division `shares / totalShares * 100` with `totalShares = 0`
(`0 / 0`, NaN in JS; the ℚ embedding totalizes it to 0): no error is
raised. -/
theorem snapshot_zero_total_unguarded :
    (mkCompany [{ name := "A", ownership := 1/100000 }] [] 1000000)
      = { capTable := [{ name := "A", shares := 0, type := ShareType.common }],
          totalShares := 0, safes := [],
          history := [{ label := "Initial Cap Table",
                        entries := [{ name := "A", shares := 0, type := ShareType.common,
                                      percentage := (0 : ℚ) / (0 : ℚ) * 100 }],
                        totalShares := 0 }] } := by
  norm_num [mkCompany, founderStep, poolStep, addEntity, saveSnapshot, snapshotOf, jsRound]


theorem sharesSum_append (l1 l2 : List CapTableEntry) :
    sharesSum (l1 ++ l2) = sharesSum l1 + sharesSum l2 := by
  simp [sharesSum]

theorem jsRound_nonneg (q : ℚ) (h : 0 ≤ q) : 0 ≤ jsRound q := by
  rw [jsRound]
  refine Int.le_floor.mpr ?_
  push_cast
  linarith

theorem sharesSum_nonneg (l : List CapTableEntry) (h : ∀ e ∈ l, 0 < e.shares) :
    0 ≤ sharesSum l := by
  induction l with
  | nil => simp [sharesSum]
  | cons e t ih =>
    rw [sharesSum_cons]
    have h1 := h e (by simp)
    have h2 := ih (fun x hx => h x (by simp [hx]))
    omega

theorem totalMatches_addEntity (c : Company) (nm : String) (sh : ℤ) (ty : ShareType)
    (h : totalMatches c) : totalMatches (addEntity c nm sh ty) := by
  simp only [totalMatches, addEntity, sharesSum_append]
  rw [← h]
  simp [sharesSum]

theorem sum_map_percent (l : List CapTableEntry) (T : ℚ) :
    (l.map fun e => (e.shares : ℚ) / T * 100).sum = ((sharesSum l : ℤ) : ℚ) / T * 100 := by
  induction l with
  | nil => simp [sharesSum]
  | cons e t ih =>
    simp only [List.map_cons, List.sum_cons, ih, sharesSum_cons]
    push_cast
    ring

theorem snapInv_snapshotOf (c : Company) (lbl : String) (h : totalMatches c) :
    snapInv (snapshotOf c lbl) := by
  constructor
  · simpa [snapshotOf, List.map_map, Function.comp, sharesSum] using h
  · intro hT
    simp only [snapshotOf] at hT ⊢
    have hT2 : (c.totalShares : ℚ) ≠ 0 := Int.cast_ne_zero.mpr hT
    rw [List.map_map]
    have hcomp : (SnapshotEntry.percentage ∘ fun e : CapTableEntry =>
        ({ name := e.name, shares := e.shares, type := e.type,
           percentage := (e.shares : ℚ) / (c.totalShares : ℚ) * 100 } : SnapshotEntry))
        = fun e : CapTableEntry => (e.shares : ℚ) / (c.totalShares : ℚ) * 100 := rfl
    rw [hcomp, sum_map_percent, ← h, div_self hT2, one_mul]

theorem totalMatches_saveSnapshot (c : Company) (lbl : String) (h : totalMatches c) :
    totalMatches (saveSnapshot c lbl) := by
  simpa [totalMatches, saveSnapshot] using h

theorem histInv_saveSnapshot (c : Company) (lbl : String) (h1 : histInv c)
    (h2 : totalMatches c) : histInv (saveSnapshot c lbl) := by
  intro s hs
  simp only [saveSnapshot] at hs
  rcases List.mem_append.mp hs with hm | hm
  · exact h1 s hm
  · rw [List.mem_singleton] at hm
    subst hm
    exact snapInv_snapshotOf c lbl h2

theorem histTotals_saveSnapshot (c : Company) (lbl : String) :
    histTotals (saveSnapshot c lbl) = histTotals c ++ [c.totalShares] := by
  simp [histTotals, saveSnapshot, snapshotOf]

/-- Folding any `addEntity`-shaped step over a list: history and safes are
untouched, total-matches is preserved, and with nonnegative share counts
the running total never decreases. -/
theorem foldl_addEntity_inv {α : Type} (step : Company → α → Company) (nmf : α → String)
    (shf : α → ℤ) (tyf : α → ShareType)
    (hstep : ∀ c x, step c x = addEntity c (nmf x) (shf x) (tyf x)) (l : List α) :
    ∀ c : Company,
      (l.foldl step c).history = c.history
      ∧ (l.foldl step c).safes = c.safes
      ∧ (totalMatches c → totalMatches (l.foldl step c))
      ∧ ((∀ x ∈ l, 0 ≤ shf x) → c.totalShares ≤ (l.foldl step c).totalShares) := by
  induction l with
  | nil => intro c; exact ⟨rfl, rfl, fun h => h, fun _ => le_refl _⟩
  | cons x t ih =>
    intro c
    rw [List.foldl_cons, hstep c x]
    obtain ⟨h1, h2, h3, h4⟩ := ih (addEntity c (nmf x) (shf x) (tyf x))
    refine ⟨by rw [h1]; simp [addEntity], by rw [h2]; simp [addEntity],
            fun h => h3 (totalMatches_addEntity c _ _ _ h), ?_⟩
    intro hx
    have hle := h4 (fun y hy => hx y (by simp [hy]))
    have hsteple : c.totalShares ≤ (addEntity c (nmf x) (shf x) (tyf x)).totalShares := by
      have := hx x (by simp)
      simp only [addEntity]
      omega
    exact le_trans hsteple hle

/-- Shape of a freshly constructed company: invariants hold, no SAFEs,
a single history snapshot recording the (nonnegative, when inputs are
valid) initial total. -/
theorem mkCompany_shape (founders : List Founder) (pools : List Pool) (b : ℚ) :
    totalMatches (mkCompany founders pools b)
    ∧ histInv (mkCompany founders pools b)
    ∧ (mkCompany founders pools b).safes = []
    ∧ histTotals (mkCompany founders pools b) = [(mkCompany founders pools b).totalShares]
    ∧ ((∀ f ∈ founders, 0 ≤ f.ownership) → (∀ p ∈ pools, 0 ≤ p.ownership) → 0 ≤ b →
        0 ≤ (mkCompany founders pools b).totalShares) := by
  obtain ⟨fh, fs, fm, fmono⟩ := foldl_addEntity_inv (founderStep b) Founder.name
    (fun f => jsRound (f.ownership / 100 * b)) (fun _ => ShareType.common)
    (fun c f => rfl) founders { capTable := [], totalShares := 0, safes := [], history := [] }
  obtain ⟨ph, ps, pm, pmono⟩ := foldl_addEntity_inv (poolStep b) Pool.note
    (fun p => jsRound (p.ownership / 100 * b)) (fun _ => ShareType.option)
    (fun c p => rfl) pools
    (founders.foldl (founderStep b) { capTable := [], totalShares := 0, safes := [], history := [] })
  have hm2 : totalMatches (pools.foldl (poolStep b)
      (founders.foldl (founderStep b)
        { capTable := [], totalShares := 0, safes := [], history := [] })) :=
    pm (fm (by simp [totalMatches, sharesSum]))
  refine ⟨?_, ?_, ?_, ?_, ?_⟩
  · exact totalMatches_saveSnapshot _ _ hm2
  · refine histInv_saveSnapshot _ _ ?_ hm2
    intro s hs
    rw [ph, fh] at hs
    simp at hs
  · show (saveSnapshot (pools.foldl (poolStep b) (founders.foldl (founderStep b)
        { capTable := [], totalShares := 0, safes := [], history := [] }))
        "Initial Cap Table").safes = []
    have hkeep : (saveSnapshot (pools.foldl (poolStep b) (founders.foldl (founderStep b)
        { capTable := [], totalShares := 0, safes := [], history := [] })) "Initial Cap Table").safes
        = (pools.foldl (poolStep b) (founders.foldl (founderStep b)
            { capTable := [], totalShares := 0, safes := [], history := [] })).safes := by
      simp [saveSnapshot]
    rw [hkeep, ps, fs]
  · show histTotals (saveSnapshot (pools.foldl (poolStep b) (founders.foldl (founderStep b)
        { capTable := [], totalShares := 0, safes := [], history := [] }))
        "Initial Cap Table") = _
    rw [histTotals_saveSnapshot]
    have hhist : (pools.foldl (poolStep b) (founders.foldl (founderStep b)
        { capTable := [], totalShares := 0, safes := [], history := [] })).history = [] := by
      rw [ph, fh]
    have : histTotals (pools.foldl (poolStep b) (founders.foldl (founderStep b)
        { capTable := [], totalShares := 0, safes := [], history := [] })) = [] := by
      simp [histTotals, hhist]
    rw [this]
    simp [mkCompany, saveSnapshot]
  · intro hf hp hb
    have h1 : (0 : ℤ) ≤ (founders.foldl (founderStep b)
        { capTable := [], totalShares := 0, safes := [], history := [] }).totalShares := by
      have := fmono (fun f hfm => jsRound_nonneg _
        (mul_nonneg (div_nonneg (hf f hfm) (by norm_num)) hb))
      simpa using this
    have h2 := pmono (fun p hpm => jsRound_nonneg _
      (mul_nonneg (div_nonneg (hp p hpm) (by norm_num)) hb))
    have h3 : (mkCompany founders pools b).totalShares
        = (pools.foldl (poolStep b) (founders.foldl (founderStep b)
            { capTable := [], totalShares := 0, safes := [], history := [] })).totalShares := by
      simp [mkCompany, saveSnapshot]
    omega

/-- Shape of `giveEquity`: the invariants are preserved, the SAFE list is
untouched, one snapshot recording the new total is appended, and the
total moves by the rounded issuance. -/
theorem giveEquity_shape (c : Company) (p : ℚ) (nm : String) (ty : ShareType) :
    (totalMatches c → totalMatches (giveEquity c p nm ty))
    ∧ (totalMatches c → histInv c → histInv (giveEquity c p nm ty))
    ∧ (giveEquity c p nm ty).safes = c.safes
    ∧ histTotals (giveEquity c p nm ty) = histTotals c ++ [(giveEquity c p nm ty).totalShares]
    ∧ (giveEquity c p nm ty).totalShares
        = c.totalShares + jsRound (p / (100 - p) * (c.totalShares : ℚ)) := by
  refine ⟨?_, ?_, ?_, ?_, ?_⟩
  · intro h
    exact totalMatches_saveSnapshot _ _ (totalMatches_addEntity c _ _ _ h)
  · intro h1 h2
    refine histInv_saveSnapshot _ _ ?_ (totalMatches_addEntity c _ _ _ h1)
    intro s hs
    exact h2 s (by simpa [addEntity] using hs)
  · simp [giveEquity, saveSnapshot, addEntity]
  · show histTotals (saveSnapshot _ _) = _
    rw [histTotals_saveSnapshot]
    simp [giveEquity, saveSnapshot, addEntity, histTotals]
  · simp [giveEquity, saveSnapshot, addEntity]

/-- Shape of `signSafe`: invariants preserved, cap table and total
untouched, one unconverted instrument appended, one snapshot recording the
unchanged total appended. -/
theorem signSafe_shape (c : Company) (cap : Cap) (amount : ℚ) (nm : String)
    (disc : Option ℚ) (ty : SafeType) :
    (totalMatches c → totalMatches (signSafe c cap amount nm disc ty))
    ∧ (totalMatches c → histInv c → histInv (signSafe c cap amount nm disc ty))
    ∧ (signSafe c cap amount nm disc ty).capTable = c.capTable
    ∧ (signSafe c cap amount nm disc ty).totalShares = c.totalShares
    ∧ (signSafe c cap amount nm disc ty).safes
        = c.safes ++ [{ cap := cap, amount := amount, name := nm, converted := false,
                        discount := disc, type := ty }]
    ∧ histTotals (signSafe c cap amount nm disc ty)
        = histTotals c ++ [(signSafe c cap amount nm disc ty).totalShares] := by
  have hsub : totalMatches c → totalMatches ({ c with safes := c.safes ++
      [{ cap := cap, amount := amount, name := nm, converted := false,
         discount := disc, type := ty }] } : Company) := by
    intro h
    simpa [totalMatches] using h
  refine ⟨?_, ?_, ?_, ?_, ?_, ?_⟩
  · intro h
    exact totalMatches_saveSnapshot _ _ (hsub h)
  · intro h1 h2
    refine histInv_saveSnapshot _ _ ?_ (hsub h1)
    intro s hs
    exact h2 s hs
  · simp [signSafe, saveSnapshot]
  · simp [signSafe, saveSnapshot]
  · simp [signSafe, saveSnapshot]
  · show histTotals (saveSnapshot _ _) = _
    rw [histTotals_saveSnapshot]
    simp [signSafe, saveSnapshot, histTotals]

/-- Shape of `pricedRound`: some list of positive preferred conversion
entries plus the round's lead entry are appended, the total moves by their
sum, one snapshot recording the new total is appended, and the invariants
are preserved. -/
theorem pricedRound_shape (c : Company) (pre neu : ℚ) (nm : String) :
    ∃ es : List CapTableEntry,
      (∀ e ∈ es, 0 < e.shares ∧ e.type = ShareType.preferred)
      ∧ (pricedRound c pre neu nm).capTable
          = c.capTable ++ es ++
            [{ name := nm, shares := jsRound (neu / (pre / (c.totalShares : ℚ))),
               type := ShareType.preferred }]
      ∧ (pricedRound c pre neu nm).totalShares
          = c.totalShares + sharesSum es + jsRound (neu / (pre / (c.totalShares : ℚ)))
      ∧ histTotals (pricedRound c pre neu nm)
          = histTotals c ++ [(pricedRound c pre neu nm).totalShares]
      ∧ (totalMatches c → totalMatches (pricedRound c pre neu nm))
      ∧ (totalMatches c → histInv c → histInv (pricedRound c pre neu nm)) := by
  obtain ⟨es, l2, heq, hpos⟩ := convert_foldl_exists
    (postMoneySafeSharesOf c (pre / (c.totalShares : ℚ))) (pre / (c.totalShares : ℚ))
    c.safes c []
  have hexp : pricedRound c pre neu nm
      = saveSnapshot
          (addEntity { c with
              capTable := c.capTable ++ es
              totalShares := c.totalShares + sharesSum es
              safes := [] ++ l2 } nm
            (jsRound (neu / (pre / (c.totalShares : ℚ)))) ShareType.preferred)
          (nm ++ ": priced round") := by
    simp only [pricedRound, heq]
  have htm : totalMatches c → totalMatches ({ c with
      capTable := c.capTable ++ es
      totalShares := c.totalShares + sharesSum es
      safes := [] ++ l2 } : Company) := by
    intro h
    simp only [totalMatches, sharesSum_append] at h ⊢
    omega
  refine ⟨es, hpos, ?_, ?_, ?_, ?_, ?_⟩
  · rw [hexp]
    simp [saveSnapshot, addEntity]
  · rw [hexp]
    dsimp only [saveSnapshot, addEntity]
  · rw [hexp]
    rw [histTotals_saveSnapshot]
    simp [histTotals, addEntity, saveSnapshot]
  · intro h
    rw [hexp]
    exact totalMatches_saveSnapshot _ _ (totalMatches_addEntity _ _ _ _ (htm h))
  · intro h1 h2
    rw [hexp]
    refine histInv_saveSnapshot _ _ ?_ (totalMatches_addEntity _ _ _ _ (htm h1))
    intro s hs
    exact h2 s (by simpa [addEntity] using hs)

/-- C1 counterexample: a reachable ledger (constructed from an empty
founder/pool configuration, which the constructor accepts) whose single
snapshot has an entry-percentage sum of 0, not 100: the claim that in
every snapshot of every reachable state the percentages sum to 100 (up to
rounding) is false when the snapshot's totalShares is 0. -/
theorem percent_sum_counterexample :
    Reachable (mkCompany [] [] 1000000)
    ∧ ¬ ∀ s ∈ (mkCompany [] [] 1000000).history,
          (s.entries.map SnapshotEntry.percentage).sum = 100 := by
  refine ⟨Reachable.init [] [] 1000000, ?_⟩
  intro h
  have hmem : ({ label := "Initial Cap Table", entries := [], totalShares := 0 }
      : EquitySnapshot) ∈ (mkCompany [] [] 1000000).history := by
    simp [mkCompany, saveSnapshot, snapshotOf]
  have := h _ hmem
  simp at this

/-- C1 (amended): for every reachable ledger state, totalShares equals
the sum of the live cap-table entries' shares; and every snapshot in the
history records a totalShares equal to the sum of its entries' shares and,
whenever that recorded total is nonzero, entry percentages that sum to
exactly 100.  Preserved by the constructor, giveEquity, signSafe and
pricedRound. -/
theorem ledger_invariant (c : Company) (h : Reachable c) : totalMatches c ∧ histInv c := by
  induction h with
  | init founders pools base =>
    obtain ⟨h1, h2, _, _, _⟩ := mkCompany_shape founders pools base
    exact ⟨h1, h2⟩
  | give c p nm ty _ ih =>
    obtain ⟨h1, h2, _, _, _⟩ := giveEquity_shape c p nm ty
    exact ⟨h1 ih.1, h2 ih.1 ih.2⟩
  | safe c cap amount nm disc ty _ ih =>
    obtain ⟨h1, h2, _, _, _, _⟩ := signSafe_shape c cap amount nm disc ty
    exact ⟨h1 ih.1, h2 ih.1 ih.2⟩
  | round c pre neu nm _ ih =>
    obtain ⟨es, _, _, _, _, h1, h2⟩ := pricedRound_shape c pre neu nm
    exact ⟨h1 ih.1, h2 ih.1 ih.2⟩

/-- Witness for C1's amended invariant: a concrete constructor +
giveEquity + signSafe + pricedRound chain satisfies it. -/
theorem ledger_invariant_witness :
    totalMatches (pricedRound (signSafe (giveEquity
        (mkCompany [{ name := "F", ownership := 50 }] [] 1000000) 10 "X" ShareType.common)
        Cap.uncapped 100000 "I" none SafeType.postMoney) 10000000 2000000 "Series A")
    ∧ histInv (pricedRound (signSafe (giveEquity
        (mkCompany [{ name := "F", ownership := 50 }] [] 1000000) 10 "X" ShareType.common)
        Cap.uncapped 100000 "I" none SafeType.postMoney) 10000000 2000000 "Series A") :=
  ledger_invariant _
    (Reachable.round _ 10000000 2000000 "Series A"
      (Reachable.safe _ Cap.uncapped 100000 "I" none SafeType.postMoney
        (Reachable.give _ 10 "X" ShareType.common
          (Reachable.init [{ name := "F", ownership := 50 }] [] 1000000))))


theorem chain_le_snoc (l : List ℤ) (x y : ℤ)
    (hc : List.Chain' (fun a b => a ≤ b) l)
    (hl : l.getLast? = some x) (hxy : x ≤ y) :
    List.Chain' (fun a b => a ≤ b) (l ++ [y]) := by
  rw [List.chain'_append]
  refine ⟨hc, List.chain'_singleton y, ?_⟩
  intro a ha b hb
  rw [hl] at ha
  simp at ha hb
  omega

/-- Under the spec's preconditions the running total stays nonnegative,
the last history snapshot records the current total, and the recorded
totals are non-decreasing. -/
theorem validReachable_inv (c : Company) (h : ValidReachable c) :
    0 ≤ c.totalShares
    ∧ (histTotals c).getLast? = some c.totalShares
    ∧ List.Chain' (fun a b => a ≤ b) (histTotals c) := by
  induction h with
  | init founders pools base hf hp hb =>
    obtain ⟨_, _, _, hs, hnn⟩ := mkCompany_shape founders pools base
    refine ⟨hnn hf hp hb, ?_, ?_⟩
    · rw [hs]
      simp
    · rw [hs]
      exact List.chain'_singleton _
  | give c p nm ty _ h0 h1 ih =>
    obtain ⟨_, _, _, hh, ht⟩ := giveEquity_shape c p nm ty
    have hstep : c.totalShares ≤ (giveEquity c p nm ty).totalShares := by
      rw [ht]
      have : 0 ≤ jsRound (p / (100 - p) * (c.totalShares : ℚ)) :=
        jsRound_nonneg _ (mul_nonneg (div_nonneg h0 (by linarith)) (Int.cast_nonneg.mpr ih.1))
      omega
    refine ⟨le_trans ih.1 hstep, ?_, ?_⟩
    · rw [hh]
      simp
    · rw [hh]
      exact chain_le_snoc _ c.totalShares _ ih.2.2 ih.2.1 hstep
  | safe c cap amount nm disc ty _ _ _ _ ih =>
    obtain ⟨_, _, _, ht, _, hh⟩ := signSafe_shape c cap amount nm disc ty
    have hstep : c.totalShares ≤ (signSafe c cap amount nm disc ty).totalShares := by
      rw [ht]
    refine ⟨le_trans ih.1 hstep, ?_, ?_⟩
    · rw [hh]
      simp
    · rw [hh]
      exact chain_le_snoc _ c.totalShares _ ih.2.2 ih.2.1 hstep
  | round c pre neu nm _ hpre hneu ih =>
    obtain ⟨es, hpos, _, ht, hh, _⟩ := pricedRound_shape c pre neu nm
    have hstep : c.totalShares ≤ (pricedRound c pre neu nm).totalShares := by
      rw [ht]
      have h1 : 0 ≤ sharesSum es := sharesSum_nonneg es (fun e he => (hpos e he).1)
      have h2 : 0 ≤ jsRound (neu / (pre / (c.totalShares : ℚ))) :=
        jsRound_nonneg _ (div_nonneg (le_of_lt hneu)
          (div_nonneg (le_of_lt hpre) (Int.cast_nonneg.mpr ih.1)))
      omega
    refine ⟨le_trans ih.1 hstep, ?_, ?_⟩
    · rw [hh]
      simp
    · rw [hh]
      exact chain_le_snoc _ c.totalShares _ ih.2.2 ih.2.1 hstep

/-- C9: for every sequence of operations whose arguments satisfy the
spec's preconditions, the totalShares values recorded in the snapshot
history are non-decreasing from oldest to newest. -/
theorem history_totals_monotone (c : Company) (h : ValidReachable c) :
    List.Chain' (fun a b => a ≤ b) (histTotals c) :=
  (validReachable_inv c h).2.2

/-- Witness for C9: a concrete constructor + grant + SAFE + priced round
chain with valid arguments has non-decreasing recorded totals. -/
theorem history_totals_monotone_witness :
    List.Chain' (fun a b => a ≤ b) (histTotals (pricedRound (signSafe (giveEquity
        (mkCompany [{ name := "F", ownership := 50 }] [] 1000000) 10 "X" ShareType.common)
        (Cap.capped 5000000) 100000 "I" (some 10) SafeType.postMoney)
        10000000 2000000 "Series A")) :=
  history_totals_monotone _
    (ValidReachable.round _ 10000000 2000000 "Series A"
      (ValidReachable.safe _ (Cap.capped 5000000) 100000 "I" (some 10) SafeType.postMoney
        (ValidReachable.give _ 10 "X" ShareType.common
          (ValidReachable.init [{ name := "F", ownership := 50 }] [] 1000000
            (by simp) (by simp) (by norm_num))
          (by norm_num) (by norm_num))
        (by norm_num)
        (by intro v hv; injection hv with hv2; rw [← hv2]; norm_num)
        (by intro d hd; injection hd with hd2; rw [← hd2]; norm_num))
      (by norm_num) (by norm_num))

/-- Every operation ends by pushing a snapshot of its final state, so in
every reachable state the last history entry is a snapshot of the current
cap table and total. -/
theorem reachable_lastMatchesState (c : Company) (h : Reachable c) :
    ∃ lbl, c.history.getLast? = some (snapshotOf c lbl) := by
  have key : ∀ (m : Company) (lbl : String),
      ∃ l, (saveSnapshot m lbl).history.getLast? = some (snapshotOf (saveSnapshot m lbl) l) := by
    intro m lbl
    refine ⟨lbl, ?_⟩
    have h1 : (saveSnapshot m lbl).history = m.history ++ [snapshotOf m lbl] := by
      simp [saveSnapshot]
    have h2 : snapshotOf (saveSnapshot m lbl) lbl = snapshotOf m lbl := by
      simp [snapshotOf, saveSnapshot]
    rw [h1, h2, List.getLast?_concat]
  cases h with
  | init founders pools base => exact key _ _
  | give c p nm ty _ => exact key _ _
  | safe c cap amount nm disc ty _ => exact key _ _
  | round c pre neu nm _ => exact key _ _

/-- C7: on every reachable ledger state and every argument tuple,
`signSafe` leaves the cap table and totalShares unchanged, appends exactly
one unconverted instrument to the outstanding SAFE list, and appends one
snapshot whose entries (names, shares, types and percentages) and
totalShares are identical to those of the immediately preceding snapshot,
differing only in its label. -/
theorem signSafe_frame (c : Company) (h : Reachable c) (cap : Cap) (amount : ℚ)
    (nm : String) (disc : Option ℚ) (ty : SafeType) :
    (signSafe c cap amount nm disc ty).capTable = c.capTable
    ∧ (signSafe c cap amount nm disc ty).totalShares = c.totalShares
    ∧ (signSafe c cap amount nm disc ty).safes
        = c.safes ++ [{ cap := cap, amount := amount, name := nm, converted := false,
                        discount := disc, type := ty }]
    ∧ ∃ prev snap : EquitySnapshot,
        c.history.getLast? = some prev
        ∧ (signSafe c cap amount nm disc ty).history = c.history ++ [snap]
        ∧ snap.entries = prev.entries
        ∧ snap.totalShares = prev.totalShares := by
  obtain ⟨lbl, hlast⟩ := reachable_lastMatchesState c h
  refine ⟨by simp [signSafe, saveSnapshot], by simp [signSafe, saveSnapshot],
          by simp [signSafe, saveSnapshot], ?_⟩
  refine ⟨snapshotOf c lbl, snapshotOf c ("SAFE: " ++ nm), hlast, ?_, ?_, ?_⟩
  · simp [signSafe, saveSnapshot, snapshotOf]
  · simp [snapshotOf]
  · simp [snapshotOf]

/-- Witness for C7 at a concrete reachable state and argument tuple. -/
theorem signSafe_frame_witness :
    (signSafe (mkCompany [{ name := "F", ownership := 100 }] [] 1000000)
        (Cap.capped 5000000) 150000 "I" (some 10) SafeType.postMoney).capTable
      = (mkCompany [{ name := "F", ownership := 100 }] [] 1000000).capTable
    ∧ (signSafe (mkCompany [{ name := "F", ownership := 100 }] [] 1000000)
        (Cap.capped 5000000) 150000 "I" (some 10) SafeType.postMoney).totalShares
      = (mkCompany [{ name := "F", ownership := 100 }] [] 1000000).totalShares
    ∧ (signSafe (mkCompany [{ name := "F", ownership := 100 }] [] 1000000)
        (Cap.capped 5000000) 150000 "I" (some 10) SafeType.postMoney).safes
      = (mkCompany [{ name := "F", ownership := 100 }] [] 1000000).safes ++
        [{ cap := Cap.capped 5000000, amount := 150000, name := "I", converted := false,
           discount := some 10, type := SafeType.postMoney }]
    ∧ ∃ prev snap : EquitySnapshot,
        (mkCompany [{ name := "F", ownership := 100 }] [] 1000000).history.getLast? = some prev
        ∧ (signSafe (mkCompany [{ name := "F", ownership := 100 }] [] 1000000)
            (Cap.capped 5000000) 150000 "I" (some 10) SafeType.postMoney).history
          = (mkCompany [{ name := "F", ownership := 100 }] [] 1000000).history ++ [snap]
        ∧ snap.entries = prev.entries
        ∧ snap.totalShares = prev.totalShares :=
  signSafe_frame (mkCompany [{ name := "F", ownership := 100 }] [] 1000000)
    (Reachable.init [{ name := "F", ownership := 100 }] [] 1000000)
    (Cap.capped 5000000) 150000 "I" (some 10) SafeType.postMoney


theorem uncappedEffPrice_nonneg (pps : ℚ) (disc : Option ℚ) (hp : 0 ≤ pps)
    (hd : ∀ d, disc = some d → 0 ≤ d ∧ d < 100) : 0 ≤ uncappedEffPrice pps disc := by
  rw [uncappedEffPrice]
  split
  · rename_i htr
    cases disc with
    | none => simp [hasDiscount] at htr
    | some d =>
      obtain ⟨h1, h2⟩ := hd d rfl
      have h3 : d / 100 < 1 := (div_lt_one (by norm_num)).mpr h2
      refine mul_nonneg hp ?_
      simp only [discountVal]
      linarith
  · exact hp

theorem cappedEffPrice_nonneg (capPps pps : ℚ) (disc : Option ℚ) (hcp : 0 ≤ capPps)
    (hp : 0 ≤ pps) (hd : ∀ d, disc = some d → 0 ≤ d ∧ d < 100) :
    0 ≤ cappedEffPrice capPps pps disc := by
  rw [cappedEffPrice]
  split
  · rename_i htr
    cases disc with
    | none => simp [hasDiscount] at htr
    | some d =>
      obtain ⟨h1, h2⟩ := hd d rfl
      have h3 : d / 100 < 1 := (div_lt_one (by norm_num)).mpr h2
      refine le_min hcp (mul_nonneg hp ?_)
      simp only [discountVal]
      linarith
  · exact le_min hcp hp

theorem safeConversionShares_nonneg (t pm : ℤ) (pps : ℚ) (s : Safe)
    (ht : 0 ≤ t) (hpm : 0 ≤ pm) (hp : 0 ≤ pps) (hs : ValidSafe s) :
    0 ≤ safeConversionShares t pm pps s := by
  obtain ⟨ha, hcap, hd⟩ := hs
  obtain ⟨scap, samount, sname, sconv, sdisc, sty⟩ := s
  dsimp only at ha hcap hd
  cases sty with
  | postMoney =>
    cases scap with
    | uncapped =>
      exact jsRound_nonneg _ (div_nonneg ha (uncappedEffPrice_nonneg pps sdisc hp hd))
    | capped v =>
      have hv : 0 ≤ v := hcap v rfl
      have hden : (0 : ℚ) ≤ ((t + pm : ℤ) : ℚ) := by exact_mod_cast add_nonneg ht hpm
      exact jsRound_nonneg _ (div_nonneg ha
        (cappedEffPrice_nonneg _ pps sdisc (div_nonneg hv hden) hp hd))
  | preMoney =>
    cases scap with
    | uncapped =>
      exact jsRound_nonneg _ (div_nonneg ha (uncappedEffPrice_nonneg pps sdisc hp hd))
    | capped v =>
      have hv : 0 ≤ v := hcap v rfl
      have hden : (0 : ℚ) ≤ (t : ℚ) := by exact_mod_cast ht
      exact jsRound_nonneg _ (div_nonneg ha
        (cappedEffPrice_nonneg _ pps sdisc (div_nonneg hv hden) hp hd))

theorem postMoneyPassStep_nonneg (t : ℤ) (pps : ℚ) (acc : ℤ) (s : Safe)
    (ht : 0 ≤ t) (hacc : 0 ≤ acc) (hp : 0 ≤ pps) (hs : ValidSafe s) :
    0 ≤ postMoneyPassStep t pps acc s := by
  obtain ⟨ha, hcap, hd⟩ := hs
  obtain ⟨scap, samount, sname, sconv, sdisc, sty⟩ := s
  dsimp only at ha hcap hd
  cases scap with
  | uncapped =>
    simp only [postMoneyPassStep]
    split
    · have h1 : 0 ≤ jsRound (samount / uncappedEffPrice pps sdisc) :=
        jsRound_nonneg _ (div_nonneg ha (uncappedEffPrice_nonneg pps sdisc hp hd))
      omega
    · exact hacc
  | capped v =>
    simp only [postMoneyPassStep]
    split
    · have hv : 0 ≤ v := hcap v rfl
      have hden : (0 : ℚ) ≤ ((t + acc : ℤ) : ℚ) := by exact_mod_cast add_nonneg ht hacc
      have h1 : 0 ≤ jsRound (samount / cappedEffPrice (v / ((t + acc : ℤ) : ℚ)) pps sdisc) :=
        jsRound_nonneg _ (div_nonneg ha
          (cappedEffPrice_nonneg _ pps sdisc (div_nonneg hv hden) hp hd))
      omega
    · exact hacc

theorem foldl_postMoneyPassStep_nonneg (t : ℤ) (pps : ℚ) (l : List Safe)
    (ht : 0 ≤ t) (hp : 0 ≤ pps) :
    ∀ acc : ℤ, 0 ≤ acc → (∀ s ∈ l, ValidSafe s) →
      0 ≤ l.foldl (postMoneyPassStep t pps) acc := by
  induction l with
  | nil =>
    intro acc h _
    simpa using h
  | cons s rest ih =>
    intro acc hacc hl
    rw [List.foldl_cons]
    exact ih _ (postMoneyPassStep_nonneg t pps acc s ht hacc hp (hl s (by simp)))
      (fun x hx => hl x (by simp [hx]))

theorem postMoneySafeSharesOf_nonneg (c : Company) (pps : ℚ)
    (ht : 0 ≤ c.totalShares) (hp : 0 ≤ pps) (hl : ∀ s ∈ c.safes, ValidSafe s) :
    0 ≤ postMoneySafeSharesOf c pps := by
  rw [postMoneySafeSharesOf]
  exact foldl_postMoneyPassStep_nonneg c.totalShares pps c.safes ht hp 0 (le_refl 0) hl

/-- With valid instruments and nonnegative round price and offsets, the
conversion fold realizes exactly the per-instrument outcome of the spec. -/
theorem convert_foldl_outcome (pm : ℤ) (pps : ℚ) (l : List Safe)
    (hpm : 0 ≤ pm) (hp : 0 ≤ pps) :
    ∀ (c : Company) (acc : List Safe), 0 ≤ c.totalShares → (∀ s ∈ l, ValidSafe s) →
      ∃ (es : List CapTableEntry) (l2 : List Safe),
        l.foldl (convertSafeStep pm pps) (c, acc)
          = ({ c with
                capTable := c.capTable ++ es
                totalShares := c.totalShares + sharesSum es }, acc ++ l2)
        ∧ ConversionOutcome pm pps c.totalShares l l2 es := by
  induction l with
  | nil =>
    intro c acc _ _
    exact ⟨[], [], by simp [sharesSum], ConversionOutcome.nil _⟩
  | cons s rest ih =>
    intro c acc ht hl
    by_cases hc : s.converted
    · obtain ⟨es, l2, heq, hout⟩ := ih c (acc ++ [s]) ht (fun x hx => hl x (by simp [hx]))
      refine ⟨es, s :: l2, ?_, ConversionOutcome.alreadyConverted _ _ _ _ _ hc hout⟩
      rw [List.foldl_cons, convertSafeStep_converted pm pps (c, acc) s hc, heq]
      simp
    · have hcf : s.converted = false := by simpa using hc
      have hnn := safeConversionShares_nonneg c.totalShares pm pps s ht hpm hp (hl s (by simp))
      by_cases hn : 0 < safeConversionShares c.totalShares pm pps s
      · obtain ⟨es, l2, heq, hout⟩ := ih
          (addEntity c (s.name ++ " (SAFE)")
            (safeConversionShares c.totalShares pm pps s) ShareType.preferred)
          (acc ++ [{ s with converted := true }])
          (by simp only [addEntity]; omega)
          (fun x hx => hl x (by simp [hx]))
        refine ⟨{ name := s.name ++ " (SAFE)",
                  shares := safeConversionShares c.totalShares pm pps s,
                  type := ShareType.preferred } :: es,
                { s with converted := true } :: l2, ?_,
                ConversionOutcome.converts _ _ _ _ _ hcf hn hout⟩
        rw [List.foldl_cons, convertSafeStep_positive pm pps (c, acc) s hcf hn, heq]
        refine Prod.ext ?_ (by simp)
        ext : 1 <;> simp [addEntity, sharesSum_cons] <;> ring
      · have hz : safeConversionShares c.totalShares pm pps s = 0 := by omega
        obtain ⟨es, l2, heq, hout⟩ := ih c (acc ++ [s]) ht (fun x hx => hl x (by simp [hx]))
        refine ⟨es, s :: l2, ?_, ConversionOutcome.zeroShares _ _ _ _ _ hcf hz hout⟩
        rw [List.foldl_cons, convertSafeStep_nonpositive pm pps (c, acc) s hcf hn, heq]
        simp

/-- C8: in every priced round on a ledger whose state and instruments
satisfy the spec's validity conditions, the outstanding-instrument list
and the cap-table additions realize the spec's per-instrument outcome:
every unconverted instrument whose computed share count is positive is
marked converted and contributes one preferred `"<name> (SAFE)"` entry of
that count, and every instrument whose count rounds to exactly zero stays
unchanged and contributes no entry, while the round still completes
(appending the lead entry; the code has no failure path). -/
theorem pricedRound_conversion_outcome (c : Company) (pre neu : ℚ) (nm : String)
    (ht : 0 ≤ c.totalShares) (hpre : 0 ≤ pre) (hl : ∀ s ∈ c.safes, ValidSafe s) :
    ∃ es : List CapTableEntry,
      ConversionOutcome (postMoneySafeSharesOf c (pre / (c.totalShares : ℚ)))
        (pre / (c.totalShares : ℚ)) c.totalShares c.safes
        (pricedRound c pre neu nm).safes es
      ∧ (pricedRound c pre neu nm).capTable
          = c.capTable ++ es ++
            [{ name := nm, shares := jsRound (neu / (pre / (c.totalShares : ℚ))),
               type := ShareType.preferred }] := by
  have hp : 0 ≤ pre / (c.totalShares : ℚ) := div_nonneg hpre (Int.cast_nonneg.mpr ht)
  have hpm : 0 ≤ postMoneySafeSharesOf c (pre / (c.totalShares : ℚ)) :=
    postMoneySafeSharesOf_nonneg c _ ht hp hl
  obtain ⟨es, l2, heq, hout⟩ :=
    convert_foldl_outcome (postMoneySafeSharesOf c (pre / (c.totalShares : ℚ)))
      (pre / (c.totalShares : ℚ)) c.safes hpm hp c [] ht hl
  refine ⟨es, ?_, ?_⟩
  · rw [pricedRound_safes, heq]
    simpa using hout
  · rw [pricedRound_capTable, heq]

/-- Witness for C8: a round containing one SAFE that rounds to zero
shares (amount 1 at price 10) and one that converts (amount 100,000 at
price 10), on valid state. -/
theorem pricedRound_conversion_outcome_witness :
    (0 : ℤ) ≤ ({ capTable := [{ name := "F", shares := 1000000, type := ShareType.common }],
                 totalShares := 1000000,
                 safes := [{ cap := Cap.uncapped, amount := 1, name := "Z", converted := false,
                             discount := none, type := SafeType.postMoney },
                           { cap := Cap.uncapped, amount := 100000, name := "B", converted := false,
                             discount := none, type := SafeType.postMoney }],
                 history := [] } : Company).totalShares
    ∧ (0 : ℚ) ≤ 10000000
    ∧ ∃ es : List CapTableEntry,
        ConversionOutcome
          (postMoneySafeSharesOf
            ({ capTable := [{ name := "F", shares := 1000000, type := ShareType.common }],
               totalShares := 1000000,
               safes := [{ cap := Cap.uncapped, amount := 1, name := "Z", converted := false,
                           discount := none, type := SafeType.postMoney },
                         { cap := Cap.uncapped, amount := 100000, name := "B", converted := false,
                           discount := none, type := SafeType.postMoney }],
               history := [] } : Company)
            ((10000000 : ℚ) / ((1000000 : ℤ) : ℚ)))
          ((10000000 : ℚ) / ((1000000 : ℤ) : ℚ)) 1000000
          [{ cap := Cap.uncapped, amount := 1, name := "Z", converted := false,
             discount := none, type := SafeType.postMoney },
           { cap := Cap.uncapped, amount := 100000, name := "B", converted := false,
             discount := none, type := SafeType.postMoney }]
          (pricedRound
            { capTable := [{ name := "F", shares := 1000000, type := ShareType.common }],
              totalShares := 1000000,
              safes := [{ cap := Cap.uncapped, amount := 1, name := "Z", converted := false,
                          discount := none, type := SafeType.postMoney },
                        { cap := Cap.uncapped, amount := 100000, name := "B", converted := false,
                          discount := none, type := SafeType.postMoney }],
              history := [] } 10000000 2000000 "Series A").safes es
        ∧ (pricedRound
            { capTable := [{ name := "F", shares := 1000000, type := ShareType.common }],
              totalShares := 1000000,
              safes := [{ cap := Cap.uncapped, amount := 1, name := "Z", converted := false,
                          discount := none, type := SafeType.postMoney },
                        { cap := Cap.uncapped, amount := 100000, name := "B", converted := false,
                          discount := none, type := SafeType.postMoney }],
              history := [] } 10000000 2000000 "Series A").capTable
          = [{ name := "F", shares := 1000000, type := ShareType.common }] ++ es ++
            [{ name := "Series A",
               shares := jsRound ((2000000 : ℚ) / ((10000000 : ℚ) / ((1000000 : ℤ) : ℚ))),
               type := ShareType.preferred }] := by
  refine ⟨by norm_num, by norm_num, ?_⟩
  exact pricedRound_conversion_outcome
    { capTable := [{ name := "F", shares := 1000000, type := ShareType.common }],
      totalShares := 1000000,
      safes := [{ cap := Cap.uncapped, amount := 1, name := "Z", converted := false,
                  discount := none, type := SafeType.postMoney },
                { cap := Cap.uncapped, amount := 100000, name := "B", converted := false,
                  discount := none, type := SafeType.postMoney }],
      history := [] } 10000000 2000000 "Series A" (by norm_num) (by norm_num)
    (by
      intro s hs
      simp only [List.mem_cons, List.not_mem_nil, or_false] at hs
      rcases hs with h | h
      · subst h
        refine ⟨by norm_num, ?_, ?_⟩
        · intro v hv
          simp at hv
        · intro d hd
          simp at hd
      · subst h
        refine ⟨by norm_num, ?_, ?_⟩
        · intro v hv
          simp at hv
        · intro d hd
          simp at hd)

end CapSim
